import Mathlib

/-!
Shallow embedding of the statistical core of `src/py/labourcan/data_processing.py`
(the labourcan repository): the percent-change engine
(`calculate_monthly_percent_change`), the centered-rank engine
(`centered_rank_expr`, applied per period partition by
`calculate_centered_rank`), and the binning engine (`cut_pdiff`).

Modelling conventions:
- A polars Float64 cell is `Option PFloat`, where `none` is the null of the
  validity mask and `PFloat` models the float values: finite values are exact
  rationals, and the IEEE specials `inf`, `neginf`, `nan` are explicit
  constructors. Subtraction and division follow IEEE semantics (in particular
  a finite nonzero value divided by zero is a signed infinity, and `0 / 0` is
  `nan`), while `none` is absorbing, as in polars arithmetic.
- The centered-rank expression and the binning engine read only the
  percent-difference column; their embeddings take that column with finite
  (rational) non-null values, which is the domain all frozen claims range
  over. `centered_rank_expr` is embedded as its per-partition semantics: the
  `.over(["YEAR", "MONTH"])` window applies exactly this function to the
  `PDIFF` values of one period partition.
- polars `rank(method="ordinal")` ranks the non-null cells, ties broken by
  row order; nulls receive a null rank and occupy no ordinal slot. This is
  embedded by counting, for each index, the indices ranked before it.
- Sorting a frame by a column list is embedded as a stable sort by the
  lexicographic key of those columns, with nulls first (the polars default).
  String columns are compared through their character data.
-/

/-- Model of a non-null polars Float64 value: an exact rational, or one of
the IEEE special values. -/
inductive PFloat where
  | fin (q : ℚ)
  | inf
  | neginf
  | nan
deriving DecidableEq, Repr

/-- IEEE-style subtraction on float values (finite arithmetic is exact). -/
def fsub : PFloat → PFloat → PFloat
  | .fin a, .fin b => .fin (a - b)
  | .fin _, .inf => .neginf
  | .fin _, .neginf => .inf
  | .inf, .fin _ => .inf
  | .inf, .neginf => .inf
  | .inf, .inf => .nan
  | .neginf, .fin _ => .neginf
  | .neginf, .inf => .neginf
  | .neginf, .neginf => .nan
  | .nan, _ => .nan
  | _, .nan => .nan

/-- IEEE-style division on float values: a positive finite value divided by
zero is `inf`, a negative one is `neginf`, and `0 / 0` is `nan` (polars
float division raises no error and produces no null here). -/
def fdiv : PFloat → PFloat → PFloat
  | .fin a, .fin b =>
      if b = 0 then (if a = 0 then .nan else if 0 < a then .inf else .neginf)
      else .fin (a / b)
  | .fin _, .inf => .fin 0
  | .fin _, .neginf => .fin 0
  | .inf, .fin b => if 0 ≤ b then .inf else .neginf
  | .neginf, .fin b => if 0 ≤ b then .neginf else .inf
  | .inf, .inf => .nan
  | .inf, .neginf => .nan
  | .neginf, .inf => .nan
  | .neginf, .neginf => .nan
  | .nan, _ => .nan
  | _, .nan => .nan

/-- Null-propagating subtraction on nullable cells, as in polars. -/
def osub : Option PFloat → Option PFloat → Option PFloat
  | some a, some b => some (fsub a b)
  | _, _ => none

/-- Null-propagating division on nullable cells, as in polars. -/
def odiv : Option PFloat → Option PFloat → Option PFloat
  | some a, some b => some (fdiv a b)
  | _, _ => none

/-- The per-record percent-difference arithmetic of
`calculate_monthly_percent_change` (lines 172 to 177 of the source):
`DIFF = VALUE - LAGGED_VALUE` and `PDIFF = DIFF / LAGGED_VALUE`. -/
def pdiffCell (v lv : Option PFloat) : Option PFloat := odiv (osub v lv) lv

/-! ### Centered-rank engine: `centered_rank_expr` (source lines 216 to 227)

The expression is applied per period partition by
`calculate_centered_rank`. Its input column is the partition of `PDIFF`
values in row order; the embedding is a function on `List (Option ℚ)`. -/

/-- The cell of a partition column at an index (out-of-range reads as null
and is never used in the theorems with an index bound). -/
def cell (col : List (Option ℚ)) (i : ℕ) : Option ℚ := col.getD i none

/-- Strictly negative non-null cell, as the polars mask `col < 0`. -/
def isNeg : Option ℚ → Bool
  | some v => decide (v < 0)
  | none => false

/-- Strictly positive non-null cell, as the polars mask `col > 0`. -/
def isPos : Option ℚ → Bool
  | some v => decide (0 < v)
  | none => false

/-- Index `j` is ranked before index `i` in the descending ordinal ranking:
its value is larger, or equal with `j` earlier in the row order. Nulls are
never ranked. -/
def descBefore (col : List (Option ℚ)) (i j : ℕ) : Bool :=
  match cell col j, cell col i with
  | some w, some v => decide (v < w) || (decide (w = v) && decide (j < i))
  | _, _ => false

/-- Index `j` is ranked before index `i` in the ascending ordinal ranking:
its value is smaller, or equal with `j` earlier in the row order. -/
def ascBefore (col : List (Option ℚ)) (i j : ℕ) : Bool :=
  match cell col j, cell col i with
  | some w, some v => decide (w < v) || (decide (w = v) && decide (j < i))
  | _, _ => false

/-- polars `col.rank(method="ordinal", descending=True)` at index `i`:
one plus the number of indices ranked before `i`, counted over the whole
partition (zeros included, nulls excluded). -/
def rank_desc (col : List (Option ℚ)) (i : ℕ) : ℤ :=
  1 + ((List.range col.length).countP (fun j => descBefore col i j) : ℤ)

/-- polars `col.rank(method="ordinal")` (ascending) at index `i`. -/
def rank_asc (col : List (Option ℚ)) (i : ℕ) : ℤ :=
  1 + ((List.range col.length).countP (fun j => ascBefore col i j) : ℤ)

/-- polars `(col > 0).sum()`: the number of strictly positive non-null
values of the partition. -/
def posCount (col : List (Option ℚ)) : ℤ :=
  ((List.range col.length).countP (fun j => isPos (cell col j)) : ℤ)

/-- polars `(col < 0).sum()`: the number of strictly negative non-null
values of the partition. -/
def negCount (col : List (Option ℚ)) : ℤ :=
  ((List.range col.length).countP (fun j => isNeg (cell col j)) : ℤ)

/-- Embedding of `centered_rank_expr` (source lines 216 to 227) applied to
one period partition. The polars `when` chain is, per row: if the value is
negative, the descending ordinal rank times minus one plus the positive
count; if zero, zero; if positive, the ascending ordinal rank minus the
negative count; a null value satisfies none of the conditions and falls to
`otherwise(None)`. For a non-null value the three conditions are exhaustive. -/
def centered_rank_expr (col : List (Option ℚ)) : List (Option ℤ) :=
  (List.range col.length).map (fun i =>
    match cell col i with
    | none => none
    | some v =>
      if v < 0 then some (rank_desc col i * (-1) + posCount col)
      else if v = 0 then some 0
      else some (rank_asc col i - negCount col))

/-! ### Percent-change engine: `calculate_monthly_percent_change`
(source lines 122 to 190) -/

/-- One input row of the canonical table handed over by the table loader:
the two categorical group columns, the calendar date (encoded as an
integer day count, only carried through), year, month, and the float
`VALUE` column. -/
structure Row where
  Industry : String
  GEO : String
  DATE_YMD : ℤ
  YEAR : ℤ
  MONTH : ℤ
  VALUE : Option PFloat
deriving DecidableEq, Repr

/-- The default of the `group_by` parameter of
`calculate_monthly_percent_change` (source line 124). -/
def default_group_by : List String := ["Industry", "GEO"]

/-- Reading a categorical column of a row by name (the group columns of
this table are the two categorical dimensions). -/
def colStr (r : Row) (c : String) : String :=
  if c = "Industry" then r.Industry else if c = "GEO" then r.GEO else ""

/-- The group key of a row: the tuple of the named group columns. -/
def keyOf (g : List String) (r : Row) : List String := g.map (colStr r)

/-- One output row of the percent-change engine: the projection in source
lines 181 to 188 keeps the group columns, `DATE_YMD`, `YEAR`, `MONTH`, the
columns matching "VALUE" (`VALUE`, `LAGGED_VALUE`) and the columns matching
"DIFF" (`DIFF`, `PDIFF`); these are exactly the fields below. -/
structure PRow where
  Industry : String
  GEO : String
  DATE_YMD : ℤ
  YEAR : ℤ
  MONTH : ℤ
  VALUE : Option PFloat
  LAGGED_VALUE : Option PFloat
  DIFF : Option PFloat
  PDIFF : Option PFloat
deriving DecidableEq, Repr

/-- The input columns of an output row. -/
def toRow (p : PRow) : Row :=
  ⟨p.Industry, p.GEO, p.DATE_YMD, p.YEAR, p.MONTH, p.VALUE⟩

/-- The group key of an output row. -/
def keyOfP (g : List String) (p : PRow) : List String := keyOf g (toRow p)

/-- Stable sort of a list by a key into a linear order (the embedding of a
polars multi-column `sort`). -/
def sortByKey {α : Type} {κ : Type} [LinearOrder κ] (k : α → κ) (l : List α) : List α :=
  @List.insertionSort α (fun a b => k a ≤ k b)
    (fun a b => inferInstanceAs (Decidable (k a ≤ k b))) l

/-- The sort key of source line 164: the group columns, then `YEAR`, then
`MONTH`. Strings are compared through their character data. -/
def sortKey1 (g : List String) (r : Row) : Lex (List (List Char) × Lex (ℤ × ℤ)) :=
  toLex ((keyOf g r).map String.data, toLex (r.YEAR, r.MONTH))

/-- Source line 164: `df.sort(group_by_list + ["YEAR", "MONTH"])`. -/
def sortRows (g : List String) (df : List Row) : List Row :=
  sortByKey (sortKey1 g) df

/-- An output row before the difference columns are filled in. -/
def mkLag (r : Row) (lv : Option PFloat) : PRow :=
  ⟨r.Industry, r.GEO, r.DATE_YMD, r.YEAR, r.MONTH, r.VALUE, lv, none, none⟩

/-- The windowed shift of source lines 165 to 169:
`LAGGED_VALUE = VALUE.shift(1).over(group_by_list)`. Row by row, the lagged
value is the `VALUE` of the latest earlier row with the same group key
(null when that row has a null value, and null when no such row exists);
`seen` accumulates the rows already passed. -/
def lagAux (g : List String) : List Row → List Row → List PRow
  | [], _ => []
  | r :: rest, seen =>
      mkLag r (((seen.filter (fun x => decide (keyOf g x = keyOf g r))).getLast?).bind Row.VALUE)
        :: lagAux g rest (seen ++ [r])

/-- Source lines 162 to 170: sort by group key and time, then shift the
value column over the group key. -/
def laggedFrame (g : List String) (df : List Row) : List PRow :=
  lagAux g (sortRows g df) []

/-- Source line 175: `DIFF = VALUE - LAGGED_VALUE`. -/
def withDiff (l : List PRow) : List PRow :=
  l.map (fun p => { p with DIFF := osub p.VALUE p.LAGGED_VALUE })

/-- Source line 176: `PDIFF = DIFF / LAGGED_VALUE`. -/
def withPdiff (l : List PRow) : List PRow :=
  l.map (fun p => { p with PDIFF := odiv p.DIFF p.LAGGED_VALUE })

/-- Source lines 181 to 188: the projection keeps the group columns,
`DATE_YMD`, `YEAR`, `MONTH` and the name-pattern matches for "VALUE" and
"DIFF", which is exactly the field set of `PRow`. -/
def selectCols (l : List PRow) : List PRow := l

/-- Sort key of a float cell: nulls first (the polars default), then
`neginf`, then the finite values in numeric order, then `inf`, then `nan`
(polars sorts `nan` above every other float). -/
def pfKey : PFloat → Lex (ℕ × ℚ)
  | .neginf => toLex (0, 0)
  | .fin q => toLex (1, q)
  | .inf => toLex (2, 0)
  | .nan => toLex (3, 0)

/-- Sort key of a nullable float cell, nulls first. -/
def pdiffKeyF : Option PFloat → WithBot (Lex (ℕ × ℚ))
  | none => ⊥
  | some f => (pfKey f : WithBot (Lex (ℕ × ℚ)))

/-- The sort key of source line 189: the group columns, then `YEAR`, then
`MONTH`, then the computed `PDIFF`. -/
def sortKey2 (g : List String) (p : PRow) :
    Lex (List (List Char) × Lex (ℤ × Lex (ℤ × WithBot (Lex (ℕ × ℚ))))) :=
  toLex ((keyOfP g p).map String.data, toLex (p.YEAR, toLex (p.MONTH, pdiffKeyF p.PDIFF)))

/-- Embedding of `calculate_monthly_percent_change` (source lines 122 to
190): sort by group and time, shift the value over the group, compute the
difference columns, project, and sort by group, time and `PDIFF`. The
source also accepts a bare string for `group_by` and wraps it into a
singleton list; the embedding takes the list directly. -/
def calculate_monthly_percent_change (df : List Row)
    (group_by : List String := default_group_by) : List PRow :=
  sortByKey (sortKey2 group_by)
    (selectCols (withPdiff (withDiff (laggedFrame group_by df))))

/-! ### Binning engine: `cut_pdiff` (source lines 230 to 282)

The engine reads the `PDIFF` column and the nullness of the remaining
columns (its `drop_nulls()` call inspects every column). An input row is
embedded as the `PDIFF` cell plus the list of the other cells. -/

/-- An input row of `cut_pdiff`: the percent-difference cell and the cells
of the remaining columns (only their nullness matters to the engine). -/
structure CRow where
  PDIFF : Option ℚ
  others : List (Option ℚ)
deriving DecidableEq, Repr

/-- A bin label produced by `cut_pdiff`: either the label of a half-open
interval between two consecutive cut points (`none` for an unbounded end),
or the dedicated literal label `"0"` of the zero override. Distinct
intervals carry distinct labels, as the polars interval strings do. -/
inductive BinLabel where
  | interval (lo : Option ℚ) (hi : Option ℚ)
  | zero
deriving DecidableEq, Repr

/-- Walk the ascending cut points: a value falls in the first right-closed
interval `(lo, c]` whose upper cut `c` it does not exceed, and above the
last cut in the unbounded interval. This is the polars `cut` default
(`left_closed=False`). -/
def cutGo (q : ℚ) (lo : Option ℚ) : List ℚ → BinLabel
  | [] => .interval lo none
  | c :: rest => if q ≤ c then .interval lo (some c) else cutGo q (some c) rest

/-- polars `pl.col("PDIFF").cut(cuts)` on one non-null value. -/
def rawCut (cuts : List ℚ) (q : ℚ) : BinLabel := cutGo q none cuts

/-- The label a non-null value receives after the zero override of source
lines 259 to 264: the literal `"0"` for an exact zero, else its cut
interval label. -/
def binLabelOf (cuts : List ℚ) (q : ℚ) : BinLabel :=
  if q = 0 then .zero else rawCut cuts q

/-- A row of the binned frame: the input cells plus `PDIFF_BINNED`. -/
structure BRow where
  PDIFF : Option ℚ
  others : List (Option ℚ)
  PDIFF_BINNED : Option BinLabel
deriving DecidableEq, Repr

/-- Source lines 254 to 258: add `PDIFF_BINNED = PDIFF.cut(cuts)`; a null
value gets a null label. -/
def addCut (cuts : List ℚ) (df : List CRow) : List BRow :=
  df.map (fun r => ⟨r.PDIFF, r.others, r.PDIFF.map (rawCut cuts)⟩)

/-- Source lines 259 to 264: `when(PDIFF == 0).then(lit "0")
.otherwise(PDIFF_BINNED)`. A null `PDIFF` fails the condition and keeps its
(null) label. -/
def zeroOverride (df : List BRow) : List BRow :=
  df.map (fun r =>
    if r.PDIFF = some 0 then { r with PDIFF_BINNED := some .zero } else r)

/-- Sort key of a nullable rational cell, nulls first. -/
def qKey : Option ℚ → WithBot ℚ
  | none => ⊥
  | some q => (q : WithBot ℚ)

/-- A frame sort by the `PDIFF` column (source lines 265 and 271). -/
def sortPdiffB (df : List BRow) : List BRow :=
  sortByKey (fun r => qKey r.PDIFF) df

/-- Source lines 253 to 267: the frame `out`, binned, zero-overridden and
sorted by `PDIFF` (the trailing `with_columns(pl.col("PDIFF_BINNED"))` of
line 266 rewrites the column with itself and is a no-op). -/
def binnedFrame (cuts : List ℚ) (df : List CRow) : List BRow :=
  sortPdiffB (zeroOverride (addCut cuts df))

/-- The `drop_nulls()` test of source line 270: a row survives when every
column is non-null. -/
def fullB (r : BRow) : Bool :=
  r.PDIFF.isSome && r.others.all Option.isSome && r.PDIFF_BINNED.isSome

/-- polars `unique(maintain_order=True)`: distinct values, first
occurrence kept. -/
def dedupF (seen : List BinLabel) : List BinLabel → List BinLabel
  | [] => []
  | x :: xs => if x ∈ seen then dedupF seen xs else x :: dedupF (x :: seen) xs

/-- Source lines 269 to 276: the derived label order of the binned column,
from the fully non-null rows sorted by ascending `PDIFF`, distinct labels
in first-occurrence order. -/
def binOrder (cuts : List ℚ) (df : List CRow) : List BinLabel :=
  dedupF [] ((sortPdiffB ((binnedFrame cuts df).filter fullB)).filterMap (fun r => r.PDIFF_BINNED))

/-- Source lines 278 to 280: the cast of `PDIFF_BINNED` to the enum of the
derived order. A null label casts to null; a label absent from the order
raises, which the embedding returns as `none` for the whole frame. -/
def cut_pdiff (cuts : List ℚ) (df : List CRow) : Option (List BRow) :=
  if (binnedFrame cuts df).all (fun r =>
      match r.PDIFF_BINNED with
      | none => true
      | some l => decide (l ∈ binOrder cuts df)) then
    some (binnedFrame cuts df)
  else
    none

/-- `DEFAULT_CUTS` of source lines 230 to 234, as exact rationals. -/
def DEFAULT_CUTS : List ℚ :=
  [mkRat (-5) 100, mkRat (-25) 1000, mkRat (-12) 1000, mkRat (-8) 1000,
   mkRat (-4) 1000, 0, mkRat 4 1000, mkRat 8 1000, mkRat 12 1000,
   mkRat 25 1000, mkRat 5 100]

/-- The non-null test on an input row of the binning engine. -/
def fullC (r : CRow) : Bool :=
  r.PDIFF.isSome && r.others.all Option.isSome

/-- The labelled image of an input row of the binning engine. -/
def labelRow (cuts : List ℚ) (r : CRow) : BRow :=
  ⟨r.PDIFF, r.others, r.PDIFF.map (binLabelOf cuts)⟩

/-- The bin-label ordering in the words of the specification: sort all
non-null rows by their numeric percent difference, and keep the distinct
sequence of their labels, first occurrence first. Defined from the
specification text for comparison with `binOrder` in claim C6. -/
def specLabelOrder (cuts : List ℚ) (df : List CRow) : List BinLabel :=
  dedupF [] ((sortByKey (fun r : CRow => qKey r.PDIFF) (df.filter fullC)).filterMap
    (fun r => r.PDIFF.map (binLabelOf cuts)))

/-! ## Helper lemmas -/

theorem sortByKey_sorted {α κ : Type} [LinearOrder κ] (k : α → κ) (l : List α) :
    (sortByKey k l).Pairwise (fun a b => k a ≤ k b) := by
  unfold sortByKey
  exact @List.sorted_insertionSort α (fun a b => k a ≤ k b)
    (fun a b => inferInstanceAs (Decidable (k a ≤ k b)))
    ⟨fun a b => le_total (k a) (k b)⟩ ⟨fun a b c hab hbc => le_trans hab hbc⟩ l

theorem sortByKey_perm {α κ : Type} [LinearOrder κ] (k : α → κ) (l : List α) :
    (sortByKey k l).Perm l := by
  unfold sortByKey
  exact @List.perm_insertionSort α (fun a b => k a ≤ k b)
    (fun a b => inferInstanceAs (Decidable (k a ≤ k b))) l

theorem centered_rank_expr_getD (col : List (Option ℚ)) (i : ℕ) (h : i < col.length) :
    (centered_rank_expr col).getD i none =
      (match cell col i with
      | none => none
      | some v =>
        if v < 0 then some (rank_desc col i * (-1) + posCount col)
        else if v = 0 then some 0
        else some (rank_asc col i - negCount col)) := by
  unfold centered_rank_expr
  rw [List.getD_eq_getElem?_getD, List.getElem?_map, List.getElem?_range h]
  rfl

theorem posCount_lt_rank_desc (col : List (Option ℚ)) (i : ℕ) (v : ℚ)
    (hc : cell col i = some v) (hv : v < 0) : posCount col < rank_desc col i := by
  unfold posCount rank_desc
  have hle : (List.range col.length).countP (fun j => isPos (cell col j))
      ≤ (List.range col.length).countP (fun j => descBefore col i j) := by
    apply List.countP_mono_left
    intro j _ hp
    unfold descBefore
    cases hcj : cell col j with
    | none => rw [hcj] at hp; simp [isPos] at hp
    | some w =>
      rw [hcj] at hp
      simp only [isPos, decide_eq_true_eq] at hp
      rw [hc]
      simp only [Bool.or_eq_true, decide_eq_true_eq]
      exact Or.inl (lt_trans hv hp)
  omega

theorem negCount_lt_rank_asc (col : List (Option ℚ)) (i : ℕ) (v : ℚ)
    (hc : cell col i = some v) (hv : 0 < v) : negCount col < rank_asc col i := by
  unfold negCount rank_asc
  have hle : (List.range col.length).countP (fun j => isNeg (cell col j))
      ≤ (List.range col.length).countP (fun j => ascBefore col i j) := by
    apply List.countP_mono_left
    intro j _ hp
    unfold ascBefore
    cases hcj : cell col j with
    | none => rw [hcj] at hp; simp [isNeg] at hp
    | some w =>
      rw [hcj] at hp
      simp only [isNeg, decide_eq_true_eq] at hp
      rw [hc]
      simp only [Bool.or_eq_true, decide_eq_true_eq]
      exact Or.inl (lt_trans hp hv)
  omega

/-! ## Claim theorems -/

/-- C1: the spec asserts the single-partition column
`[-0.05, -0.02, 0, 0.01, 0.03]` receives centered ranks `[-2, -1, 0, 1, 2]`.
The code instead yields `[-3, -2, 0, 2, 3]`: both whole-partition ordinal
rankings count the zero record, so every nonzero rank is pushed one step
further from zero, contradicting the docstring of the source function
(rank `[-1, -2, 0, 1, 2]` in its example, and smallest positive value
rank `+1`). This theorem evaluates the code on the failing input. -/
theorem c1_worked_example_eval :
    centered_rank_expr
        [some (mkRat (-5) 100), some (mkRat (-2) 100), some 0,
         some (mkRat 1 100), some (mkRat 3 100)]
      = [some (-3), some (-2), some 0, some 2, some 3]
    ∧ centered_rank_expr
        [some (mkRat (-5) 100), some (mkRat (-2) 100), some 0,
         some (mkRat 1 100), some (mkRat 3 100)]
      ≠ [some (-2), some (-1), some 0, some 1, some 2] := by
  constructor
  · decide
  · decide

/-- C2: the spec asserts the negative ranks of a partition are exactly
`{-1, ..., -N}` and the positive ranks exactly `{1, ..., P}`. On the
partition `[-0.01, 0, 0.02]` (so `N = 1`, `P = 1`) the code assigns ranks
`[-2, 0, 2]`: the zero record occupies an ordinal slot in both rankings,
so neither `-1` nor `1` is assigned and the claimed sets are missed. This
theorem evaluates the code on the failing input. -/
theorem c2_density_eval :
    centered_rank_expr [some (mkRat (-1) 100), some 0, some (mkRat 2 100)]
      = [some (-2), some 0, some 2]
    ∧ negCount [some (mkRat (-1) 100), some 0, some (mkRat 2 100)] = 1
    ∧ posCount [some (mkRat (-1) 100), some 0, some (mkRat 2 100)] = 1
    ∧ some (-1 : ℤ) ∉ centered_rank_expr [some (mkRat (-1) 100), some 0, some (mkRat 2 100)]
    ∧ some (1 : ℤ) ∉ centered_rank_expr [some (mkRat (-1) 100), some 0, some (mkRat 2 100)] := by
  refine ⟨by decide, by decide, by decide, by decide, by decide⟩

theorem crank_at_none (col : List (Option ℚ)) (i : ℕ) (h : i < col.length)
    (hc : cell col i = none) : (centered_rank_expr col).getD i none = none := by
  rw [centered_rank_expr_getD col i h, hc]

theorem crank_at_neg (col : List (Option ℚ)) (i : ℕ) (v : ℚ) (h : i < col.length)
    (hc : cell col i = some v) (hv : v < 0) :
    (centered_rank_expr col).getD i none
      = some (rank_desc col i * (-1) + posCount col) := by
  rw [centered_rank_expr_getD col i h, hc]
  simp [hv]

theorem crank_at_zero (col : List (Option ℚ)) (i : ℕ) (h : i < col.length)
    (hc : cell col i = some 0) : (centered_rank_expr col).getD i none = some 0 := by
  rw [centered_rank_expr_getD col i h, hc]
  norm_num

theorem crank_at_pos (col : List (Option ℚ)) (i : ℕ) (v : ℚ) (h : i < col.length)
    (hc : cell col i = some v) (hv : 0 < v) :
    (centered_rank_expr col).getD i none
      = some (rank_asc col i - negCount col) := by
  rw [centered_rank_expr_getD col i h, hc]
  rw [show (match some v with
      | none => (none : Option ℤ)
      | some v =>
        if v < 0 then some (rank_desc col i * (-1) + posCount col)
        else if v = 0 then some 0
        else some (rank_asc col i - negCount col))
    = if v < 0 then some (rank_desc col i * (-1) + posCount col)
      else if v = 0 then some 0
      else some (rank_asc col i - negCount col) from rfl]
  rw [if_neg (not_lt.mpr hv.le), if_neg hv.ne.symm]

/-- C5: per period partition, the centered rank is strictly negative
exactly on the strictly negative non-null percent differences, strictly
positive exactly on the strictly positive ones, zero on an exact zero, and
null exactly on null. -/
theorem c5_rank_sign_law (col : List (Option ℚ)) (i : ℕ) (h : i < col.length) :
    ((centered_rank_expr col).getD i none = none ↔ cell col i = none)
    ∧ (cell col i = some 0 → (centered_rank_expr col).getD i none = some 0)
    ∧ ((∃ r, (centered_rank_expr col).getD i none = some r ∧ r < 0)
        ↔ (∃ v, cell col i = some v ∧ v < 0))
    ∧ ((∃ r, (centered_rank_expr col).getD i none = some r ∧ 0 < r)
        ↔ (∃ v, cell col i = some v ∧ 0 < v)) := by
  cases hc : cell col i with
  | none =>
    rw [crank_at_none col i h hc]
    simp
  | some v =>
    rcases lt_trichotomy v 0 with hv | hv | hv
    · rw [crank_at_neg col i v h hc hv]
      have hlt := posCount_lt_rank_desc col i v hc hv
      refine ⟨by simp, ?_, ?_, ?_⟩
      · intro h0
        exact absurd (Option.some.inj h0) hv.ne
      · constructor
        · intro _
          exact ⟨v, rfl, hv⟩
        · intro _
          exact ⟨rank_desc col i * (-1) + posCount col, rfl, by omega⟩
      · constructor
        · rintro ⟨r, hr, hrpos⟩
          have hA := Option.some.inj hr
          exact absurd hrpos (by omega)
        · rintro ⟨w, hw, hwpos⟩
          have hvw := Option.some.inj hw
          exact absurd (hvw ▸ hwpos) (not_lt.mpr hv.le)
    · subst hv
      rw [crank_at_zero col i h hc]
      refine ⟨by simp, fun _ => rfl, ?_, ?_⟩
      · constructor
        · rintro ⟨r, hr, hrneg⟩
          have h0r := Option.some.inj hr
          omega
        · rintro ⟨w, hw, hwneg⟩
          have h0w := Option.some.inj hw
          subst h0w
          exact absurd hwneg (lt_irrefl 0)
      · constructor
        · rintro ⟨r, hr, hrpos⟩
          have h0r := Option.some.inj hr
          omega
        · rintro ⟨w, hw, hwpos⟩
          have h0w := Option.some.inj hw
          subst h0w
          exact absurd hwpos (lt_irrefl 0)
    · rw [crank_at_pos col i v h hc hv]
      have hlt := negCount_lt_rank_asc col i v hc hv
      refine ⟨by simp, ?_, ?_, ?_⟩
      · intro h0
        exact absurd (Option.some.inj h0) hv.ne.symm
      · constructor
        · rintro ⟨r, hr, hrneg⟩
          have hA := Option.some.inj hr
          exact absurd hrneg (by omega)
        · rintro ⟨w, hw, hwneg⟩
          have hvw := Option.some.inj hw
          exact absurd (hvw ▸ hwneg) (not_lt.mpr hv.le)
      · constructor
        · intro _
          exact ⟨v, rfl, hv⟩
        · intro _
          exact ⟨rank_asc col i - negCount col, rfl, by omega⟩

/-- Witness for C5 at the concrete partition `[-1, 1, none, 0]`, index 0. -/
theorem c5_rank_sign_law_witness :
    ((centered_rank_expr [some (-1), some 1, none, some 0]).getD 0 none = none
        ↔ cell [some (-1), some 1, none, some 0] 0 = none)
    ∧ (cell [some (-1), some 1, none, some 0] 0 = some 0
        → (centered_rank_expr [some (-1), some 1, none, some 0]).getD 0 none = some 0)
    ∧ ((∃ r, (centered_rank_expr [some (-1), some 1, none, some 0]).getD 0 none = some r ∧ r < 0)
        ↔ (∃ v, cell [some (-1), some 1, none, some 0] 0 = some v ∧ v < 0))
    ∧ ((∃ r, (centered_rank_expr [some (-1), some 1, none, some 0]).getD 0 none = some r ∧ 0 < r)
        ↔ (∃ v, cell [some (-1), some 1, none, some 0] 0 = some v ∧ 0 < v)) :=
  c5_rank_sign_law [some (-1), some 1, none, some 0] 0 (by decide)

/-- C10: the spec asserts the default grouping key of the percent-change
engine is a single industry dimension. The default of the source (line
124) is the composite `["Industry", "GEO"]`, two columns. -/
theorem c10_default_counterexample :
    default_group_by ≠ ["Industry"] ∧ default_group_by.length ≠ 1 := by
  refine ⟨by decide, by decide⟩

/-- C10 amended: the default grouping key of
`calculate_monthly_percent_change` is the composite
`["Industry", "GEO"]` (industry and geography); a single industry
dimension is available only by passing it explicitly. -/
theorem c10_default_amended :
    default_group_by = ["Industry", "GEO"] ∧ default_group_by.length = 2 := by
  refine ⟨rfl, rfl⟩

theorem cutGo_interval (cuts : List ℚ) (q : ℚ) :
    ∀ lo : Option ℚ, ∃ l h, cutGo q lo cuts = BinLabel.interval l h := by
  induction cuts with
  | nil => intro lo; exact ⟨lo, none, rfl⟩
  | cons c rest ih =>
    intro lo
    by_cases hq : q ≤ c
    · exact ⟨lo, some c, by simp [cutGo, hq]⟩
    · simpa [cutGo, hq] using ih (some c)

theorem zeroOverride_addCut (cuts : List ℚ) (df : List CRow) :
    zeroOverride (addCut cuts df) = df.map (labelRow cuts) := by
  unfold zeroOverride addCut
  rw [List.map_map]
  apply List.map_congr_left
  intro r _
  simp only [Function.comp]
  cases hp : r.PDIFF with
  | none => simp [labelRow, hp]
  | some q =>
    by_cases hq : q = 0
    · subst hq
      simp [labelRow, hp, binLabelOf]
    · simp [labelRow, hp, binLabelOf, hq]

theorem mem_of_mem_binnedFrame (cuts : List ℚ) (df : List CRow) (r : BRow)
    (hr : r ∈ binnedFrame cuts df) : ∃ r₀, r₀ ∈ df ∧ r = labelRow cuts r₀ := by
  unfold binnedFrame sortPdiffB at hr
  have hperm := sortByKey_perm (fun b : BRow => qKey b.PDIFF) (zeroOverride (addCut cuts df))
  have hmem : r ∈ zeroOverride (addCut cuts df) := hperm.mem_iff.mp hr
  rw [zeroOverride_addCut] at hmem
  rcases List.mem_map.mp hmem with ⟨r₀, h₀, hmap⟩
  exact ⟨r₀, h₀, hmap.symm⟩

/-- C3: the claim asserts a zero lagged value yields a null percent
difference. The code divides Float64 columns, so a zero lagged value with
a non-null value yields an IEEE special value, not null: here
`value = 1`, `lagged_value = 0` gives `pct_diff = +inf`. -/
theorem c3_zero_divisor_counterexample :
    pdiffCell (some (PFloat.fin 1)) (some (PFloat.fin 0)) = some PFloat.inf
    ∧ pdiffCell (some (PFloat.fin 1)) (some (PFloat.fin 0)) ≠ none := by
  have h : pdiffCell (some (PFloat.fin 1)) (some (PFloat.fin 0)) = some PFloat.inf := by
    simp [pdiffCell, osub, odiv, fsub, fdiv]
  refine ⟨h, ?_⟩
  rw [h]
  simp

/-- C3 amended: for non-null finite operands with nonzero lagged value,
`pct_diff` is exactly `(value - lagged_value) / lagged_value`; a null
lagged value gives a null `pct_diff`; a zero lagged value with a finite
non-null value gives a non-null IEEE special value (`+inf`, `-inf`, or
`nan` when the value is also zero), never null and never an exception
(the embedding is a total function); and the pipeline computes the
`PDIFF` column of every row by exactly this cell arithmetic. -/
theorem c3_pct_change_arithmetic (v lv : Option PFloat) :
    (∀ a b : ℚ, v = some (PFloat.fin a) → lv = some (PFloat.fin b) → b ≠ 0 →
      pdiffCell v lv = some (PFloat.fin ((a - b) / b)))
    ∧ (lv = none → pdiffCell v lv = none)
    ∧ (∀ a : ℚ, v = some (PFloat.fin a) → lv = some (PFloat.fin 0) →
      pdiffCell v lv
        = some (if a = 0 then PFloat.nan else if 0 < a then PFloat.inf else PFloat.neginf)
      ∧ pdiffCell v lv ≠ none)
    ∧ (∀ l : List PRow,
      (withPdiff (withDiff l)).map PRow.PDIFF
        = l.map (fun p => pdiffCell p.VALUE p.LAGGED_VALUE)) := by
  refine ⟨?_, ?_, ?_, ?_⟩
  · intro a b hva hlb hb
    subst hva
    subst hlb
    simp [pdiffCell, osub, odiv, fsub, fdiv, hb]
  · intro hnone
    subst hnone
    cases v <;> simp [pdiffCell, osub, odiv]
  · intro a hva hl0
    subst hva
    subst hl0
    constructor
    · simp [pdiffCell, osub, odiv, fsub, fdiv]
    · simp [pdiffCell, osub, odiv]
  · intro l
    simp only [withDiff, withPdiff, List.map_map]
    rfl

/-- Witness for C3 at `value = 3`, `lagged_value = 2`. -/
theorem c3_pct_change_arithmetic_witness :
    pdiffCell (some (PFloat.fin 3)) (some (PFloat.fin 2))
      = some (PFloat.fin ((3 - 2) / 2)) :=
  (c3_pct_change_arithmetic (some (PFloat.fin 3)) (some (PFloat.fin 2))).1 3 2 rfl rfl
    (by norm_num)

/-- C7: the claim asserts the binning engine never raises for any input
table. A table whose single row has a non-null `pct_diff` but a null in
another column refutes it: `drop_nulls()` removes the row from the order
derivation, the derived order is empty, and the cast of the row label to
the empty enum raises (embedded as the `none` result). -/
theorem c7_cast_raises_counterexample :
    cut_pdiff DEFAULT_CUTS [⟨some (mkRat 1 1000), [none]⟩] = none
    ∧ (⟨some (mkRat 1 1000), [none]⟩ : CRow).PDIFF.isSome = true := by
  refine ⟨by decide, by decide⟩

/-- C8: the output of the percent-change engine is sorted by the
composite key of the group columns, then year, then month, then the
computed `PDIFF` as final tie-breaker (nulls first), which is the lex key
`sortKey2`. -/
theorem c8_final_ordering (df : List Row) (g : List String) :
    (calculate_monthly_percent_change df g).Pairwise
      (fun p q => sortKey2 g p ≤ sortKey2 g q) := by
  unfold calculate_monthly_percent_change
  exact sortByKey_sorted (sortKey2 g) _

/-- C9: every record of a successful binning whose `pct_diff` is exactly
zero carries the dedicated label `"0"`, even though zero is itself a cut
point: the raw cut alone would give it an interval label, never the
dedicated one (third conjunct). -/
theorem c9_zero_override (cuts : List ℚ) (df : List CRow) (out : List BRow) (r : BRow)
    (hout : cut_pdiff cuts df = some out) (hr : r ∈ out) (h0 : r.PDIFF = some 0) :
    r.PDIFF_BINNED = some BinLabel.zero
    ∧ ∀ q : ℚ, ∃ lo hi, rawCut cuts q = BinLabel.interval lo hi := by
  have hout2 : out = binnedFrame cuts df := by
    unfold cut_pdiff at hout
    split at hout
    · exact (Option.some.inj hout).symm
    · exact absurd hout (by simp)
  subst hout2
  rcases mem_of_mem_binnedFrame cuts df r hr with ⟨r₀, _, hmap⟩
  constructor
  · subst hmap
    have hp0 : r₀.PDIFF = some 0 := h0
    rw [show (labelRow cuts r₀).PDIFF_BINNED = r₀.PDIFF.map (binLabelOf cuts) from rfl, hp0]
    simp [binLabelOf]
  · intro q
    exact cutGo_interval cuts q none

/-- Witness for C9 on the one-row table with `pct_diff = 0`. -/
theorem c9_zero_override_witness :
    (⟨some 0, [], some BinLabel.zero⟩ : BRow).PDIFF_BINNED = some BinLabel.zero
    ∧ ∀ q : ℚ, ∃ lo hi, rawCut DEFAULT_CUTS q = BinLabel.interval lo hi :=
  c9_zero_override DEFAULT_CUTS [⟨some 0, []⟩] [⟨some 0, [], some BinLabel.zero⟩]
    ⟨some 0, [], some BinLabel.zero⟩ (by decide) (by decide) rfl

theorem toRow_mkLag (r : Row) (lv : Option PFloat) : toRow (mkLag r lv) = r := rfl

theorem mkLag_VALUE (r : Row) (lv : Option PFloat) : (mkLag r lv).VALUE = r.VALUE := rfl

theorem mkLag_LAGGED (r : Row) (lv : Option PFloat) : (mkLag r lv).LAGGED_VALUE = lv := rfl

theorem keyOfP_mkLag (g : List String) (r : Row) (lv : Option PFloat) :
    keyOfP g (mkLag r lv) = keyOf g r := rfl

theorem lagAux_map_toRow (g : List String) :
    ∀ (s acc : List Row), (lagAux g s acc).map toRow = s := by
  intro s
  induction s with
  | nil => intro acc; rfl
  | cons r rest ih =>
    intro acc
    simp [lagAux, toRow_mkLag, ih]

theorem lagAux_filter_value (g k : List String) :
    ∀ (s acc : List Row),
      ((lagAux g s acc).filter (fun x => decide (keyOfP g x = k))).map PRow.VALUE
        = (s.filter (fun x => decide (keyOf g x = k))).map Row.VALUE := by
  intro s
  induction s with
  | nil => intro acc; rfl
  | cons r rest ih =>
    intro acc
    by_cases hk : keyOf g r = k
    · simp [lagAux, List.filter_cons, keyOfP_mkLag, hk, ih, mkLag_VALUE]
    · simp [lagAux, List.filter_cons, keyOfP_mkLag, hk, ih]

theorem lagAux_filter_lagged (g k : List String) :
    ∀ (s acc : List Row),
      ((lagAux g s acc).filter (fun x => decide (keyOfP g x = k))).map PRow.LAGGED_VALUE
        = ((((acc.filter (fun x => decide (keyOf g x = k))).getLast?).bind Row.VALUE)
            :: (s.filter (fun x => decide (keyOf g x = k))).map Row.VALUE).dropLast := by
  intro s
  induction s with
  | nil => intro acc; simp [lagAux]
  | cons r rest ih =>
    intro acc
    by_cases hk : keyOf g r = k
    · have hacc : ((acc ++ [r]).filter (fun x => decide (keyOf g x = k))).getLast? = some r := by
        rw [List.filter_append]
        have hr1 : [r].filter (fun x => decide (keyOf g x = k)) = [r] := by simp [hk]
        rw [hr1, List.getLast?_concat]
      have htail := ih (acc ++ [r])
      rw [hacc] at htail
      simp [lagAux, List.filter_cons, keyOfP_mkLag, hk, htail, mkLag_LAGGED,
        List.dropLast_cons₂]
    · have hacc : (acc ++ [r]).filter (fun x => decide (keyOf g x = k))
          = acc.filter (fun x => decide (keyOf g x = k)) := by
        rw [List.filter_append]
        have hr1 : [r].filter (fun x => decide (keyOf g x = k)) = [] := by simp [hk]
        rw [hr1, List.append_nil]
      have htail := ih (acc ++ [r])
      rw [hacc] at htail
      simp [lagAux, List.filter_cons, keyOfP_mkLag, hk, htail]

/-- C4: for every group key, the rows of the lag stage with that key are
in strictly increasing chronological order (given the loader invariant
that periods are unique per group), and their lagged-value column is the
value column shifted down by one: the first record has a null
`lagged_value` and every later record carries the exact previous value,
null values propagating only to the immediate successor. -/
theorem c4_lag_correctness (g : List String) (df : List Row) (k : List String)
    (huniq : (df.filter (fun x => decide (keyOf g x = k))).Pairwise
      (fun r t => (r.YEAR, r.MONTH) ≠ (t.YEAR, t.MONTH))) :
    ((laggedFrame g df).filter (fun x => decide (keyOfP g x = k))).Pairwise
      (fun p q => p.YEAR < q.YEAR ∨ (p.YEAR = q.YEAR ∧ p.MONTH < q.MONTH))
    ∧ ((laggedFrame g df).filter (fun x => decide (keyOfP g x = k))).map PRow.LAGGED_VALUE
      = (none :: ((laggedFrame g df).filter (fun x => decide (keyOfP g x = k))).map PRow.VALUE).dropLast := by
  have hsort := sortByKey_sorted (sortKey1 g) df
  have hperm := sortByKey_perm (sortKey1 g) df
  have hsymm : ∀ {r t : Row}, (r.YEAR, r.MONTH) ≠ (t.YEAR, t.MONTH)
      → (t.YEAR, t.MONTH) ≠ (r.YEAR, r.MONTH) := fun h => Ne.symm h
  have huniqs : ((sortRows g df).filter (fun x => decide (keyOf g x = k))).Pairwise
      (fun r t => (r.YEAR, r.MONTH) ≠ (t.YEAR, t.MONTH)) := by
    refine (List.Perm.pairwise_iff hsymm ?_).mpr huniq
    exact List.Perm.filter _ hperm
  have hsf := List.Pairwise.filter (fun x => decide (keyOf g x = k)) hsort
  have hrow : ((sortRows g df).filter (fun x => decide (keyOf g x = k))).Pairwise
      (fun r t => r.YEAR < t.YEAR ∨ (r.YEAR = t.YEAR ∧ r.MONTH < t.MONTH)) := by
    refine List.Pairwise.imp_of_mem ?_ (hsf.and huniqs)
    intro a b ha hb hab
    obtain ⟨hle, hne⟩ := hab
    have hka : keyOf g a = k := by
      have := (List.mem_filter.mp ha).2
      simpa using this
    have hkb : keyOf g b = k := by
      have := (List.mem_filter.mp hb).2
      simpa using this
    unfold sortKey1 at hle
    rw [hka, hkb] at hle
    rcases (Prod.Lex.le_iff _ _).mp hle with hlt | hrest
    · exact absurd hlt (lt_irrefl _)
    · rcases (Prod.Lex.le_iff _ _).mp hrest.2 with hylt | hyrest
      · exact Or.inl hylt
      · refine Or.inr ⟨hyrest.1, lt_of_le_of_ne hyrest.2 ?_⟩
        intro hmeq
        exact hne (Prod.ext hyrest.1 hmeq)
  have hmapRow : (((laggedFrame g df).filter (fun x => decide (keyOfP g x = k))).map toRow)
      = (sortRows g df).filter (fun x => decide (keyOf g x = k)) := by
    unfold laggedFrame
    conv_rhs => rw [← lagAux_map_toRow g (sortRows g df) []]
    rw [List.filter_map]
    rfl
  constructor
  · have hrow2 : (((laggedFrame g df).filter (fun x => decide (keyOfP g x = k))).map toRow).Pairwise
        (fun r t => r.YEAR < t.YEAR ∨ (r.YEAR = t.YEAR ∧ r.MONTH < t.MONTH)) := by
      rw [hmapRow]
      exact hrow
    exact List.pairwise_map.mp hrow2
  · have h1 := lagAux_filter_lagged g k (sortRows g df) []
    have h2 := lagAux_filter_value g k (sortRows g df) []
    simp only [List.filter_nil, List.getLast?, Option.bind] at h1
    unfold laggedFrame
    rw [h1, ← h2]

/-- Witness for C4 on a three-row table, two industries, unsorted input. -/
theorem c4_lag_correctness_witness :
    (([⟨"A", "C", 0, 2024, 2, some (PFloat.fin 12)⟩, ⟨"B", "C", 0, 2024, 1, some (PFloat.fin 7)⟩,
       ⟨"A", "C", 0, 2024, 1, some (PFloat.fin 10)⟩] : List Row).filter
        (fun x => decide (keyOf ["Industry", "GEO"] x = ["A", "C"]))).Pairwise
      (fun r t => (r.YEAR, r.MONTH) ≠ (t.YEAR, t.MONTH))
    ∧ (((laggedFrame ["Industry", "GEO"]
          [⟨"A", "C", 0, 2024, 2, some (PFloat.fin 12)⟩, ⟨"B", "C", 0, 2024, 1, some (PFloat.fin 7)⟩,
           ⟨"A", "C", 0, 2024, 1, some (PFloat.fin 10)⟩]).filter
          (fun x => decide (keyOfP ["Industry", "GEO"] x = ["A", "C"]))).Pairwise
        (fun p q => p.YEAR < q.YEAR ∨ (p.YEAR = q.YEAR ∧ p.MONTH < q.MONTH))
      ∧ ((laggedFrame ["Industry", "GEO"]
          [⟨"A", "C", 0, 2024, 2, some (PFloat.fin 12)⟩, ⟨"B", "C", 0, 2024, 1, some (PFloat.fin 7)⟩,
           ⟨"A", "C", 0, 2024, 1, some (PFloat.fin 10)⟩]).filter
          (fun x => decide (keyOfP ["Industry", "GEO"] x = ["A", "C"]))).map PRow.LAGGED_VALUE
        = (none :: ((laggedFrame ["Industry", "GEO"]
          [⟨"A", "C", 0, 2024, 2, some (PFloat.fin 12)⟩, ⟨"B", "C", 0, 2024, 1, some (PFloat.fin 7)⟩,
           ⟨"A", "C", 0, 2024, 1, some (PFloat.fin 10)⟩]).filter
          (fun x => decide (keyOfP ["Industry", "GEO"] x = ["A", "C"]))).map PRow.VALUE).dropLast) :=
  ⟨by decide,
   c4_lag_correctness ["Industry", "GEO"]
     [⟨"A", "C", 0, 2024, 2, some (PFloat.fin 12)⟩, ⟨"B", "C", 0, 2024, 1, some (PFloat.fin 7)⟩,
      ⟨"A", "C", 0, 2024, 1, some (PFloat.fin 10)⟩] ["A", "C"] (by decide)⟩

theorem labelRow_PDIFF (cuts : List ℚ) (r : CRow) : (labelRow cuts r).PDIFF = r.PDIFF := rfl

theorem fullB_labelRow (cuts : List ℚ) (r : CRow) : fullB (labelRow cuts r) = fullC r := by
  cases hp : r.PDIFF <;> simp [fullB, fullC, labelRow, hp]

theorem qKey_injective : Function.Injective qKey := by
  intro a b h
  cases a with
  | none =>
    cases b with
    | none => rfl
    | some q => exact absurd h (by simp [qKey])
  | some p =>
    cases b with
    | none => exact absurd h (by simp [qKey])
    | some q => exact congrArg some (WithBot.coe_inj.mp h)

theorem binned_labels_eq_spec (cuts : List ℚ) (df : List CRow) :
    (sortPdiffB ((binnedFrame cuts df).filter fullB)).filterMap (fun r => r.PDIFF_BINNED)
      = (sortByKey (fun r : CRow => qKey r.PDIFF) (df.filter fullC)).filterMap
          (fun r => r.PDIFF.map (binLabelOf cuts)) := by
  have hp1 : (sortPdiffB ((binnedFrame cuts df).filter fullB)).Perm
      ((df.filter fullC).map (labelRow cuts)) := by
    have h1 : (sortPdiffB ((binnedFrame cuts df).filter fullB)).Perm
        ((binnedFrame cuts df).filter fullB) := sortByKey_perm _ _
    have h2 : (binnedFrame cuts df).Perm (df.map (labelRow cuts)) := by
      unfold binnedFrame sortPdiffB
      rw [zeroOverride_addCut]
      exact sortByKey_perm _ _
    have h3 := List.Perm.filter fullB h2
    have h4 : (df.map (labelRow cuts)).filter fullB = (df.filter fullC).map (labelRow cuts) := by
      rw [List.filter_map]
      congr 1
      apply List.filter_congr
      intro r _
      exact fullB_labelRow cuts r
    exact h1.trans (h4 ▸ h3)
  have hp2 : ((sortByKey (fun r : CRow => qKey r.PDIFF) (df.filter fullC)).map (labelRow cuts)).Perm
      ((df.filter fullC).map (labelRow cuts)) :=
    List.Perm.map _ (sortByKey_perm _ _)
  have hp12 : (sortPdiffB ((binnedFrame cuts df).filter fullB)).Perm
      ((sortByKey (fun r : CRow => qKey r.PDIFF) (df.filter fullC)).map (labelRow cuts)) :=
    hp1.trans hp2.symm
  have hs1 : (sortPdiffB ((binnedFrame cuts df).filter fullB)).Pairwise
      (fun a b => qKey a.PDIFF ≤ qKey b.PDIFF) := sortByKey_sorted _ _
  have hs2 : ((sortByKey (fun r : CRow => qKey r.PDIFF) (df.filter fullC)).map (labelRow cuts)).Pairwise
      (fun a b => qKey a.PDIFF ≤ qKey b.PDIFF) := by
    rw [List.pairwise_map]
    exact sortByKey_sorted _ _
  have hkeys : (sortPdiffB ((binnedFrame cuts df).filter fullB)).map (fun r => qKey r.PDIFF)
      = ((sortByKey (fun r : CRow => qKey r.PDIFF) (df.filter fullC)).map (labelRow cuts)).map
          (fun r => qKey r.PDIFF) := by
    haveI : IsAntisymm (WithBot ℚ) (fun a b => a ≤ b) := ⟨fun a b h1 h2 => le_antisymm h1 h2⟩
    exact List.eq_of_perm_of_sorted (hp12.map _)
      (List.pairwise_map.mpr hs1) (List.pairwise_map.mpr hs2)
  have hpd : (sortPdiffB ((binnedFrame cuts df).filter fullB)).map (fun r => r.PDIFF)
      = ((sortByKey (fun r : CRow => qKey r.PDIFF) (df.filter fullC)).map (labelRow cuts)).map
          (fun r => r.PDIFF) := by
    apply List.map_injective_iff.mpr qKey_injective
    rw [List.map_map, List.map_map]
    exact hkeys
  have hlab1 : ∀ r ∈ sortPdiffB ((binnedFrame cuts df).filter fullB),
      r.PDIFF_BINNED = r.PDIFF.map (binLabelOf cuts) := by
    intro r hr
    rcases List.mem_map.mp (hp1.mem_iff.mp hr) with ⟨r₀, _, hmap⟩
    rw [← hmap]
    rfl
  calc (sortPdiffB ((binnedFrame cuts df).filter fullB)).filterMap (fun r => r.PDIFF_BINNED)
      = (sortPdiffB ((binnedFrame cuts df).filter fullB)).filterMap
          (fun r => r.PDIFF.map (binLabelOf cuts)) := List.filterMap_congr hlab1
    _ = ((sortPdiffB ((binnedFrame cuts df).filter fullB)).map (fun r => r.PDIFF)).filterMap
          (fun o => o.map (binLabelOf cuts)) :=
        (List.filterMap_map (fun r : BRow => r.PDIFF)
          (fun o : Option ℚ => o.map (binLabelOf cuts))
          (sortPdiffB ((binnedFrame cuts df).filter fullB))).symm
    _ = (((sortByKey (fun r : CRow => qKey r.PDIFF) (df.filter fullC)).map (labelRow cuts)).map
          (fun r => r.PDIFF)).filterMap (fun o => o.map (binLabelOf cuts)) := by rw [hpd]
    _ = ((sortByKey (fun r : CRow => qKey r.PDIFF) (df.filter fullC)).map (labelRow cuts)).filterMap
          (fun r => r.PDIFF.map (binLabelOf cuts)) :=
        List.filterMap_map (fun r : BRow => r.PDIFF)
          (fun o : Option ℚ => o.map (binLabelOf cuts))
          ((sortByKey (fun r : CRow => qKey r.PDIFF) (df.filter fullC)).map (labelRow cuts))
    _ = (sortByKey (fun r : CRow => qKey r.PDIFF) (df.filter fullC)).filterMap
          (fun r => r.PDIFF.map (binLabelOf cuts)) := by
        rw [List.filterMap_map]
        rfl

theorem dedupF_mem : ∀ (l seen : List BinLabel) (a : BinLabel),
    a ∈ l → a ∈ seen ∨ a ∈ dedupF seen l := by
  intro l
  induction l with
  | nil => intro seen a ha; cases ha
  | cons x xs ih =>
    intro seen a ha
    by_cases hx : x ∈ seen
    · simp only [dedupF, if_pos hx]
      rcases List.mem_cons.mp ha with rfl | hxs
      · exact Or.inl hx
      · exact ih seen a hxs
    · simp only [dedupF, if_neg hx]
      rcases List.mem_cons.mp ha with rfl | hxs
      · exact Or.inr (List.mem_cons_self _ _)
      · rcases ih (x :: seen) a hxs with hseen | hded
        · rcases List.mem_cons.mp hseen with rfl | h2
          · exact Or.inr (List.mem_cons_self _ _)
          · exact Or.inl h2
        · exact Or.inr (List.mem_cons_of_mem _ hded)

theorem dedupF_subset : ∀ (l seen : List BinLabel) (a : BinLabel),
    a ∈ dedupF seen l → a ∈ l := by
  intro l
  induction l with
  | nil => intro seen a ha; simp [dedupF] at ha
  | cons x xs ih =>
    intro seen a ha
    by_cases hx : x ∈ seen
    · simp only [dedupF, if_pos hx] at ha
      exact List.mem_cons_of_mem _ (ih seen a ha)
    · simp only [dedupF, if_neg hx] at ha
      rcases List.mem_cons.mp ha with rfl | h2
      · exact List.mem_cons_self _ _
      · exact List.mem_cons_of_mem _ (ih (x :: seen) a h2)

/-- C6: the derived bin-label ordering is exactly the distinct label
sequence of the non-null rows sorted by ascending numeric `pct_diff`,
first occurrence kept (`specLabelOrder` renders the words of the
specification), and every label of the ordering occurs on some non-null
row, so unobserved labels are absent. -/
theorem c6_bin_order_derivation (cuts : List ℚ) (df : List CRow) :
    binOrder cuts df = specLabelOrder cuts df
    ∧ ∀ l ∈ binOrder cuts df, ∃ r, r ∈ df ∧ fullC r = true
        ∧ r.PDIFF.map (binLabelOf cuts) = some l := by
  have hlabels := binned_labels_eq_spec cuts df
  constructor
  · unfold binOrder specLabelOrder
    rw [hlabels]
  · intro l hl
    unfold binOrder at hl
    rw [hlabels] at hl
    have hl2 := dedupF_subset _ [] l hl
    rcases List.mem_filterMap.mp hl2 with ⟨r, hrS, hrl⟩
    have hrdf : r ∈ df.filter fullC := (sortByKey_perm _ _).mem_iff.mp hrS
    have hsplit := List.mem_filter.mp hrdf
    exact ⟨r, hsplit.1, hsplit.2, hrl⟩

/-- Witness for C6 on the cut points `[-0.05, 0, 0.05]` and the observed
values `[-0.1, -0.01, 0, 0.02, 0.1]` of the specification. -/
theorem c6_bin_order_derivation_witness :
    binOrder [mkRat (-5) 100, 0, mkRat 5 100]
        [⟨some (mkRat (-1) 10), []⟩, ⟨some (mkRat (-1) 100), []⟩, ⟨some 0, []⟩,
         ⟨some (mkRat 2 100), []⟩, ⟨some (mkRat 1 10), []⟩]
      = specLabelOrder [mkRat (-5) 100, 0, mkRat 5 100]
        [⟨some (mkRat (-1) 10), []⟩, ⟨some (mkRat (-1) 100), []⟩, ⟨some 0, []⟩,
         ⟨some (mkRat 2 100), []⟩, ⟨some (mkRat 1 10), []⟩]
    ∧ ∃ r, r ∈ ([⟨some (mkRat (-1) 10), []⟩, ⟨some (mkRat (-1) 100), []⟩, ⟨some 0, []⟩,
         ⟨some (mkRat 2 100), []⟩, ⟨some (mkRat 1 10), []⟩] : List CRow) ∧ fullC r = true
        ∧ r.PDIFF.map (binLabelOf [mkRat (-5) 100, 0, mkRat 5 100]) = some BinLabel.zero :=
  ⟨(c6_bin_order_derivation [mkRat (-5) 100, 0, mkRat 5 100]
      [⟨some (mkRat (-1) 10), []⟩, ⟨some (mkRat (-1) 100), []⟩, ⟨some 0, []⟩,
       ⟨some (mkRat 2 100), []⟩, ⟨some (mkRat 1 10), []⟩]).1,
   (c6_bin_order_derivation [mkRat (-5) 100, 0, mkRat 5 100]
      [⟨some (mkRat (-1) 10), []⟩, ⟨some (mkRat (-1) 100), []⟩, ⟨some 0, []⟩,
       ⟨some (mkRat 2 100), []⟩, ⟨some (mkRat 1 10), []⟩]).2 BinLabel.zero (by decide)⟩

/-- C7 amended: the claim asserts the binning engine never raises for any
input table, including records non-null in `pct_diff` but null in another
column; the counterexample refutes exactly that case. What holds: on any
table in which every record with a non-null `pct_diff` is non-null in all
other columns, the engine raises nothing (the enum cast succeeds), and
every record with a null `pct_diff` carries a null bin label. -/
theorem c7_nullsafe_amended (cuts : List ℚ) (df : List CRow)
    (h : ∀ r ∈ df, r.PDIFF.isSome = true → r.others.all Option.isSome = true) :
    ∃ out, cut_pdiff cuts df = some out
      ∧ ∀ r ∈ out, r.PDIFF = none → r.PDIFF_BINNED = none := by
  have hcheck : (binnedFrame cuts df).all (fun r =>
      match r.PDIFF_BINNED with
      | none => true
      | some l => decide (l ∈ binOrder cuts df)) = true := by
    rw [List.all_eq_true]
    intro r hr
    rcases mem_of_mem_binnedFrame cuts df r hr with ⟨r₀, h₀, hmap⟩
    cases hp : r₀.PDIFF with
    | none =>
      have : r.PDIFF_BINNED = none := by
        rw [hmap]
        simp [labelRow, hp]
      rw [this]
    | some q =>
      have hfullc : fullC r₀ = true := by
        unfold fullC
        have hps : r₀.PDIFF.isSome = true := by rw [hp]; rfl
        rw [hps, h r₀ h₀ hps]
        rfl
      have hread : r.PDIFF_BINNED = some (binLabelOf cuts q) := by
        rw [hmap]
        simp [labelRow, hp]
      rw [hread]
      simp only [decide_eq_true_eq]
      have hfb : fullB r = true := by
        rw [hmap, fullB_labelRow]
        exact hfullc
      have hmem1 : r ∈ (binnedFrame cuts df).filter fullB := List.mem_filter.mpr ⟨hr, hfb⟩
      have hmem2 : r ∈ sortPdiffB ((binnedFrame cuts df).filter fullB) :=
        (sortByKey_perm _ _).mem_iff.mpr hmem1
      have hmem3 : binLabelOf cuts q ∈
          (sortPdiffB ((binnedFrame cuts df).filter fullB)).filterMap (fun r => r.PDIFF_BINNED) :=
        List.mem_filterMap.mpr ⟨r, hmem2, hread⟩
      rcases dedupF_mem _ [] (binLabelOf cuts q) hmem3 with hfalse | hgood
      · cases hfalse
      · exact hgood
  refine ⟨binnedFrame cuts df, ?_, ?_⟩
  · unfold cut_pdiff
    rw [if_pos hcheck]
  · intro r hr hnull
    rcases mem_of_mem_binnedFrame cuts df r hr with ⟨r₀, _, hmap⟩
    have hp : r₀.PDIFF = none := by
      rw [hmap] at hnull
      exact hnull
    rw [hmap]
    simp [labelRow, hp]

/-- Witness for C7 amended: a two-row table, one zero `pct_diff` and one
null `pct_diff`, all other columns non-null. -/
theorem c7_nullsafe_amended_witness :
    ∃ out, cut_pdiff DEFAULT_CUTS [⟨some 0, [some 1]⟩, ⟨none, [some 2]⟩] = some out
      ∧ ∀ r ∈ out, r.PDIFF = none → r.PDIFF_BINNED = none :=
  c7_nullsafe_amended DEFAULT_CUTS [⟨some 0, [some 1]⟩, ⟨none, [some 2]⟩] (by decide)
